import Mathlib

namespace PyNBT

/-- The closed NBT tag-kind enumeration, ids 0 to 12 on the wire (spec section 3). -/
inductive TagKind where
  | End | Byte | Short | Int | Long | Float | Double
  | ByteArray | String | List | Compound | IntArray | LongArray
deriving DecidableEq, Repr

/-- Wire id of a tag kind (0..12), part of the public contract. -/
def TagKind.id : TagKind → Nat
  | .End => 0
  | .Byte => 1
  | .Short => 2
  | .Int => 3
  | .Long => 4
  | .Float => 5
  | .Double => 6
  | .ByteArray => 7
  | .String => 8
  | .List => 9
  | .Compound => 10
  | .IntArray => 11
  | .LongArray => 12

/-- Inverse of TagKind.id: recognize a wire kind id byte. -/
def kindOfId : Nat → Option TagKind
  | 0 => some .End
  | 1 => some .Byte
  | 2 => some .Short
  | 3 => some .Int
  | 4 => some .Long
  | 5 => some .Float
  | 6 => some .Double
  | 7 => some .ByteArray
  | 8 => some .String
  | 9 => some .List
  | 10 => some .Compound
  | 11 => some .IntArray
  | 12 => some .LongArray
  | _ => none

theorem kindOfId_id (k : TagKind) : kindOfId k.id = some k := by
  cases k <;> rfl

/-- The NBT tag value tree (spec section 3). Numeric payloads are stored as
their raw big-endian unsigned bit patterns (a Nat below 2 to the width), which
is the byte-level content the codec reads and writes; float and double payloads
are likewise their 4- or 8-byte IEEE-754 bit patterns. Strings and names are
kept as their raw UTF-8 byte sequences. -/
inductive TagValue where
  | byte (v : Nat)
  | short (v : Nat)
  | int (v : Nat)
  | long (v : Nat)
  | float (v : Nat)
  | double (v : Nat)
  | byteArray (vs : List Nat)
  | string (bs : List Nat)
  | list (elemKind : TagKind) (elems : List TagValue)
  | compound (entries : List (List Nat × TagValue))
  | intArray (vs : List Nat)
  | longArray (vs : List Nat)

/-- The kind discriminant of a tag value (never End: End is only a marker). -/
def TagValue.kind : TagValue → TagKind
  | .byte _ => .Byte
  | .short _ => .Short
  | .int _ => .Int
  | .long _ => .Long
  | .float _ => .Float
  | .double _ => .Double
  | .byteArray _ => .ByteArray
  | .string _ => .String
  | .list _ _ => .List
  | .compound _ => .Compound
  | .intArray _ => .IntArray
  | .longArray _ => .LongArray

/-- Write a Nat as `w` big-endian bytes (modulo 2^(8*w), spec sections 4.2/4.3). -/
def writeBE : Nat → Nat → List Nat
  | 0, _ => []
  | w + 1, n => (n / 256 ^ w % 256) :: writeBE w n

/-- Read `w` big-endian bytes into an accumulator; fails on a truncated stream. -/
def readBE : Nat → Nat → List Nat → Option (Nat × List Nat)
  | 0, acc, s => some (acc, s)
  | _ + 1, _, [] => none
  | w + 1, acc, b :: s => readBE w (acc * 256 + b) s

/-- Write each element of a list as `w` big-endian bytes, concatenated. -/
def writeMany (w : Nat) : List Nat → List Nat
  | [] => []
  | v :: vs => writeBE w v ++ writeMany w vs

/-- Read `c` fixed-width (`w`-byte big-endian) elements from the stream. -/
def readFixed (w : Nat) : Nat → List Nat → Option (List Nat × List Nat)
  | 0, s => some ([], s)
  | c + 1, s => do
    let (v, s₁) ← readBE w 0 s
    let (vs, s₂) ← readFixed w c s₁
    pure (v :: vs, s₂)

theorem writeBE_length (w n : Nat) : (writeBE w n).length = w := by
  induction w generalizing n with
  | zero => rfl
  | succ w ih => simp [writeBE, ih]

theorem readBE_writeBE (w : Nat) : ∀ (acc n : Nat) (r : List Nat),
    readBE w acc (writeBE w n ++ r) = some (acc * 256 ^ w + n % 256 ^ w, r) := by
  induction w with
  | zero => intro acc n r; simp [writeBE, readBE, Nat.mod_one]
  | succ w ih =>
    intro acc n r
    rw [writeBE, List.cons_append, readBE, ih]
    congr 2
    have h256 : (256 : Nat) ^ (w + 1) = 256 ^ w * 256 := by ring
    have hmod : n % 256 ^ (w + 1) = n % 256 ^ w + 256 ^ w * (n / 256 ^ w % 256) := by
      rw [h256, Nat.mod_mul]
    rw [hmod]; ring

theorem readBE_writeBE_of_lt {w n : Nat} (h : n < 256 ^ w) (r : List Nat) :
    readBE w 0 (writeBE w n ++ r) = some (n, r) := by
  rw [readBE_writeBE, Nat.mod_eq_of_lt h, Nat.zero_mul, Nat.zero_add]

theorem readFixed_writeMany {w : Nat} : ∀ (vs : List Nat), (∀ v ∈ vs, v < 256 ^ w) →
    ∀ (r : List Nat), readFixed w vs.length (writeMany w vs ++ r) = some (vs, r) := by
  intro vs
  induction vs with
  | nil => intro _ r; simp [writeMany, readFixed]
  | cons v vs ih =>
    intro h r
    have hv : v < 256 ^ w := h v (List.mem_cons_self v vs)
    rw [List.length_cons, writeMany, List.append_assoc]
    simp only [readFixed, readBE_writeBE_of_lt hv,
      ih (fun x hx => h x (List.mem_cons_of_mem v hx)) r,
      Option.pure_def, Option.bind_eq_bind, Option.some_bind]

theorem writeMany_length (w : Nat) : ∀ (vs : List Nat), (writeMany w vs).length = w * vs.length := by
  intro vs
  induction vs with
  | nil => simp [writeMany]
  | cons v vs ih => simp [writeMany, ih, writeBE_length]; ring

/-- Whether a tag value is a container (Compound or List) as tested by
`isinstance(tag, (nbt.TAG_Compound, nbt.TAG_List))` in main.py. -/
def TagValue.isContainer : TagValue → Bool
  | .list _ _ => true
  | .compound _ => true
  | _ => false

mutual

/-- Encoder payload writer (spec section 4.3), the exact mirror of the decoder:
big-endian fixed widths, 2-byte length-prefixed strings, 4-byte signed counts,
1-byte kind ids, End terminator on every compound body. -/
def encodePayload : TagValue → List Nat
  | .byte v => writeBE 1 v
  | .short v => writeBE 2 v
  | .int v => writeBE 4 v
  | .long v => writeBE 8 v
  | .float v => writeBE 4 v
  | .double v => writeBE 8 v
  | .byteArray vs => writeBE 4 vs.length ++ writeMany 1 vs
  | .string bs => writeBE 2 bs.length ++ writeMany 1 bs
  | .list k es => k.id :: (writeBE 4 es.length ++ encodeElems es)
  | .compound en => encodeEntries en ++ [0]
  | .intArray vs => writeBE 4 vs.length ++ writeMany 4 vs
  | .longArray vs => writeBE 4 vs.length ++ writeMany 8 vs

/-- Concatenated payloads of the elements of a List tag. -/
def encodeElems : List TagValue → List Nat
  | [] => []
  | v :: vs => encodePayload v ++ encodeElems vs

/-- Compound body: for each entry a 1-byte kind id, 2-byte name length, the
UTF-8 name bytes, then the payload (the End terminator is added by the caller). -/
def encodeEntries : List (List Nat × TagValue) → List Nat
  | [] => []
  | (n, v) :: es =>
    v.kind.id :: (writeBE 2 n.length ++ writeMany 1 n ++ encodePayload v) ++ encodeEntries es

end

mutual

/-- Well-formedness of a tag value per spec section 3: numeric payloads fit
their wire width, string/name lengths fit the 2-byte prefix, array and list
counts fit the 4-byte signed (nonnegative) count, lists are homogeneous with a
non-End element kind when nonempty, compound names are unique. -/
def validTag : TagValue → Bool
  | .byte v => decide (v < 256)
  | .short v => decide (v < 256 ^ 2)
  | .int v => decide (v < 256 ^ 4)
  | .long v => decide (v < 256 ^ 8)
  | .float v => decide (v < 256 ^ 4)
  | .double v => decide (v < 256 ^ 8)
  | .byteArray vs => decide (vs.length < 2 ^ 31) && vs.all fun v => decide (v < 256)
  | .string bs => decide (bs.length < 256 ^ 2) && bs.all fun b => decide (b < 256)
  | .list k es =>
    decide (es.length < 2 ^ 31) && (es.isEmpty || !(k == .End)) && validElems k es
  | .compound en => namesDisjoint en && validEntries en
  | .intArray vs => decide (vs.length < 2 ^ 31) && vs.all fun v => decide (v < 256 ^ 4)
  | .longArray vs => decide (vs.length < 2 ^ 31) && vs.all fun v => decide (v < 256 ^ 8)

/-- Every element of a List tag is valid and has the declared element kind. -/
def validElems (k : TagKind) : List TagValue → Bool
  | [] => true
  | v :: vs => (v.kind == k) && validTag v && validElems k vs

/-- Every compound entry has a name fitting the 2-byte length prefix (raw bytes)
and a valid value. -/
def validEntries : List (List Nat × TagValue) → Bool
  | [] => true
  | (n, v) :: es =>
    decide (n.length < 256 ^ 2) && (n.all fun b => decide (b < 256)) && validTag v
      && validEntries es

/-- Compound entry names are pairwise distinct. -/
def namesDisjoint : List (List Nat × TagValue) → Bool
  | [] => true
  | (n, _) :: es => !(es.any fun e => decide (e.1 = n)) && namesDisjoint es

end

mutual

/-- Fuel needed by the fuel-indexed decoder to consume the encoding of a tag. -/
def tagFuel : TagValue → Nat
  | .list _ es => elemsFuel es + 2
  | .compound en => entriesFuel en + 2
  | _ => 1

def elemsFuel : List TagValue → Nat
  | [] => 0
  | v :: vs => tagFuel v + elemsFuel vs + 1

def entriesFuel : List (List Nat × TagValue) → Nat
  | [] => 0
  | (_, v) :: es => tagFuel v + entriesFuel es + 1

end

/-- Replace, else append, a (name, value) pair: step 3 of the decode algorithm
appends each entry "overwriting any prior entry with the same name"
(last-write-wins leniency of spec sections 4.2 and 9). -/
def upsert (en : List (List Nat × TagValue)) (n : List Nat) (v : TagValue) :
    List (List Nat × TagValue) :=
  if en.any fun e => decide (e.1 = n) then
    en.map fun e => if e.1 = n then (n, v) else e
  else en ++ [(n, v)]

mutual

/-- Recursive-descent payload reader (spec section 4.2, step 4), indexed by
fuel; every recursive call decreases the fuel, and `none` is the MalformedInput
outcome (truncation, unrecognized kind id, negative array count). A List with a
declared count of zero or a negative count (high bit of the 4-byte signed count
set) yields an empty list regardless of declared element kind. -/
def readPayload : Nat → TagKind → List Nat → Option (TagValue × List Nat)
  | 0, _, _ => none
  | f + 1, k, s =>
    match k with
    | .End => none
    | .Byte => do
      let (v, s₁) ← readBE 1 0 s
      pure (.byte v, s₁)
    | .Short => do
      let (v, s₁) ← readBE 2 0 s
      pure (.short v, s₁)
    | .Int => do
      let (v, s₁) ← readBE 4 0 s
      pure (.int v, s₁)
    | .Long => do
      let (v, s₁) ← readBE 8 0 s
      pure (.long v, s₁)
    | .Float => do
      let (v, s₁) ← readBE 4 0 s
      pure (.float v, s₁)
    | .Double => do
      let (v, s₁) ← readBE 8 0 s
      pure (.double v, s₁)
    | .ByteArray => do
      let (c, s₁) ← readBE 4 0 s
      if c < 2 ^ 31 then do
        let (vs, s₂) ← readFixed 1 c s₁
        pure (.byteArray vs, s₂)
      else none
    | .String => do
      let (c, s₁) ← readBE 2 0 s
      let (bs, s₂) ← readFixed 1 c s₁
      pure (.string bs, s₂)
    | .List => do
      let (b, s₁) ← readBE 1 0 s
      match kindOfId b with
      | none => none
      | some ek => do
        let (c, s₂) ← readBE 4 0 s₁
        if c = 0 ∨ 2 ^ 31 ≤ c then pure (.list ek [], s₂)
        else do
          let (es, s₃) ← readElems f ek c s₂
          pure (.list ek es, s₃)
    | .Compound => do
      let (en, s₁) ← readEntries f s []
      pure (.compound en, s₁)
    | .IntArray => do
      let (c, s₁) ← readBE 4 0 s
      if c < 2 ^ 31 then do
        let (vs, s₂) ← readFixed 4 c s₁
        pure (.intArray vs, s₂)
      else none
    | .LongArray => do
      let (c, s₁) ← readBE 4 0 s
      if c < 2 ^ 31 then do
        let (vs, s₂) ← readFixed 8 c s₁
        pure (.longArray vs, s₂)
      else none

/-- Read `c` list elements of the declared element kind. -/
def readElems : Nat → TagKind → Nat → List Nat → Option (List TagValue × List Nat)
  | _, _, 0, s => some ([], s)
  | 0, _, _ + 1, _ => none
  | f + 1, k, c + 1, s => do
    let (v, s₁) ← readPayload f k s
    let (vs, s₂) ← readElems f k c s₁
    pure (v :: vs, s₂)

/-- Step 3 of the decode algorithm: repeatedly read a kind byte; End stops the
compound; otherwise read the 2-byte-length-prefixed name and the payload, and
append the pair last-write-wins. -/
def readEntries : Nat → List Nat → List (List Nat × TagValue) →
    Option (List (List Nat × TagValue) × List Nat)
  | 0, _, _ => none
  | f + 1, s, acc => do
    let (b, s₁) ← readBE 1 0 s
    if b = 0 then pure (acc, s₁)
    else
      match kindOfId b with
      | none => none
      | some k => do
        let (nl, s₂) ← readBE 2 0 s₁
        let (name, s₃) ← readFixed 1 nl s₂
        let (v, s₄) ← readPayload f k s₃
        readEntries f s₄ (upsert acc name v)

end

/-- The top-level root object (spec section 3): a (name, value) pair whose
value is always a Compound. -/
structure NamedTag where
  name : List Nat
  value : TagValue

/-- A well-formed root: the name fits its 2-byte length prefix and is made of
bytes, and the value is a valid Compound. -/
def validNamed (T : NamedTag) : Bool :=
  decide (T.name.length < 256 ^ 2) && (T.name.all fun b => decide (b < 256))
    && (T.value.kind == .Compound) && validTag T.value

/-- Modelled from the spec: the Decoder (spec section 4.2; the `nbt` library
used by main.py is an external dependency, not under src/). Reads the root
kind byte (must be Compound, id 10; End, id 0, is the permissive empty
document), the 2-byte-length-prefixed root name, then the compound body.
`none` is the MalformedInput outcome. The fuel 3 * length + 1 is shown
sufficient for every stream the Encoder produces. -/
def decode (s : List Nat) : Option NamedTag :=
  match s with
  | [] => none
  | b :: r =>
    if b = 0 then some ⟨[], .compound []⟩
    else if b = 10 then
      match readBE 2 0 r with
      | none => none
      | some (nl, s₁) =>
        match readFixed 1 nl s₁ with
        | none => none
        | some (name, s₂) =>
          match readPayload (3 * s.length + 1) .Compound s₂ with
          | none => none
          | some (v, _) => some ⟨name, v⟩
    else none

/-- Modelled from the spec: the Encoder (spec section 4.3; the `nbt` library
used by main.py is an external dependency, not under src/). Writes the root
Compound kind byte, the 2-byte-length-prefixed root name, then the compound
payload (entries followed by the End terminator). -/
def encode (T : NamedTag) : List Nat :=
  10 :: (writeBE 2 T.name.length ++ writeMany 1 T.name ++ encodePayload T.value)

theorem tagFuel_pos (v : TagValue) : 1 ≤ tagFuel v := by
  cases v <;> simp [tagFuel]

theorem kind_id_ne_zero (v : TagValue) : v.kind.id ≠ 0 := by
  cases v <;> simp [TagValue.kind, TagKind.id]

theorem readBE_cons (b : Nat) (s : List Nat) : readBE 1 0 (b :: s) = some (b, s) := by
  simp [readBE]

theorem upsert_fresh (acc : List (List Nat × TagValue)) (n : List Nat) (v : TagValue)
    (h : ∀ e ∈ acc, e.1 ≠ n) : upsert acc n v = acc ++ [(n, v)] := by
  have hany : (acc.any fun e => decide (e.1 = n)) = false := by
    simp only [List.any_eq_false, decide_eq_true_eq]
    intro e he
    exact h e he
  simp [upsert, hany]

theorem read_encode :
    ∀ f : Nat,
    (∀ (v : TagValue) (r : List Nat), validTag v = true → tagFuel v ≤ f →
      readPayload f v.kind (encodePayload v ++ r) = some (v, r))
    ∧ (∀ (k : TagKind) (es : List TagValue) (r : List Nat), validElems k es = true →
      elemsFuel es < f →
      readElems f k es.length (encodeElems es ++ r) = some (es, r))
    ∧ (∀ (en acc : List (List Nat × TagValue)) (r : List Nat),
      validEntries en = true → namesDisjoint en = true →
      (∀ e ∈ acc, ∀ e2 ∈ en, e.1 ≠ e2.1) → entriesFuel en < f →
      readEntries f (encodeEntries en ++ 0 :: r) acc = some (acc ++ en, r)) := by
  intro f
  induction f with
  | zero =>
    refine ⟨fun v r _ hf => absurd hf ?_, fun k es r _ hf => absurd hf (by omega),
      fun en acc r _ _ _ hf => absurd hf (by omega)⟩
    have := tagFuel_pos v
    omega
  | succ f ih =>
    obtain ⟨ih1, ih2, ih3⟩ := ih
    refine ⟨?_, ?_, ?_⟩
    · intro v r hv hf
      cases v with
      | byte x =>
        have hx : x < 256 ^ 1 := by simpa [validTag] using hv
        simp [TagValue.kind, encodePayload, readPayload, readBE_writeBE_of_lt hx]
      | short x =>
        have hx : x < 256 ^ 2 := by simpa [validTag] using hv
        simp [TagValue.kind, encodePayload, readPayload, readBE_writeBE_of_lt hx]
      | int x =>
        have hx : x < 256 ^ 4 := by simpa [validTag] using hv
        simp [TagValue.kind, encodePayload, readPayload, readBE_writeBE_of_lt hx]
      | long x =>
        have hx : x < 256 ^ 8 := by simpa [validTag] using hv
        simp [TagValue.kind, encodePayload, readPayload, readBE_writeBE_of_lt hx]
      | float x =>
        have hx : x < 256 ^ 4 := by simpa [validTag] using hv
        simp [TagValue.kind, encodePayload, readPayload, readBE_writeBE_of_lt hx]
      | double x =>
        have hx : x < 256 ^ 8 := by simpa [validTag] using hv
        simp [TagValue.kind, encodePayload, readPayload, readBE_writeBE_of_lt hx]
      | byteArray vs =>
        obtain ⟨h31, hel⟩ : vs.length < 2 ^ 31 ∧ ∀ v ∈ vs, v < 256 := by
          simpa [validTag, List.all_eq_true] using hv
        have h31n : vs.length < 2147483648 := by norm_num at h31 ⊢; exact h31
        have hlen : vs.length < 256 ^ 4 := lt_trans h31 (by norm_num)
        have hfix := readFixed_writeMany (w := 1) vs (by simpa using hel) r
        simp [TagValue.kind, encodePayload, readPayload, List.append_assoc,
          readBE_writeBE_of_lt hlen, h31n, hfix]
      | string bs =>
        obtain ⟨hbl, hel⟩ : bs.length < 256 ^ 2 ∧ ∀ b ∈ bs, b < 256 := by
          simpa [validTag, List.all_eq_true] using hv
        have hfix := readFixed_writeMany (w := 1) bs (by simpa using hel) r
        simp [TagValue.kind, encodePayload, readPayload, List.append_assoc,
          readBE_writeBE_of_lt hbl, hfix]
      | list k es =>
        obtain ⟨⟨h31, -⟩, hes⟩ :
            (es.length < 2 ^ 31 ∧ (es = [] ∨ ¬k = .End)) ∧ validElems k es = true := by
          simpa [validTag, Bool.and_eq_true, List.isEmpty_iff] using hv
        have hlen : es.length < 256 ^ 4 := lt_trans h31 (by norm_num)
        have hfuel : elemsFuel es < f := by
          rw [tagFuel] at hf
          omega
        by_cases h0 : es = []
        · subst h0
          simp [TagValue.kind, encodePayload, readPayload, readBE_cons, kindOfId_id,
            encodeElems, readBE_writeBE_of_lt (show (0 : Nat) < 256 ^ 4 by norm_num)]
        · have hlz : es.length ≠ 0 := fun hc => h0 (List.length_eq_zero.mp hc)
          have hne : ¬(es.length = 0 ∨ 2147483648 ≤ es.length) := by
            norm_num at h31
            omega
          have helems := ih2 k es r hes hfuel
          simp [TagValue.kind, encodePayload, readPayload, readBE_cons, kindOfId_id,
            List.append_assoc, readBE_writeBE_of_lt hlen, hne, helems]
          intro hcon
          rcases hcon with hcon | hcon
          · exact absurd hcon h0
          · norm_num at h31
            omega
      | compound en =>
        obtain ⟨hnd, hen⟩ : namesDisjoint en = true ∧ validEntries en = true := by
          simpa [validTag, Bool.and_eq_true] using hv
        have hfuel : entriesFuel en < f := by
          rw [tagFuel] at hf
          omega
        have hent := ih3 en [] r hen hnd (by simp) hfuel
        simp only [TagValue.kind, encodePayload, readPayload, List.append_assoc,
          List.cons_append, List.nil_append, List.singleton_append] at hent ⊢
        simp [hent]
      | intArray vs =>
        obtain ⟨h31, hel⟩ : vs.length < 2 ^ 31 ∧ ∀ v ∈ vs, v < 256 ^ 4 := by
          simpa [validTag, List.all_eq_true] using hv
        have h31n : vs.length < 2147483648 := by norm_num at h31 ⊢; exact h31
        have hlen : vs.length < 256 ^ 4 := lt_trans h31 (by norm_num)
        have hfix := readFixed_writeMany (w := 4) vs hel r
        simp [TagValue.kind, encodePayload, readPayload, List.append_assoc,
          readBE_writeBE_of_lt hlen, h31n, hfix]
      | longArray vs =>
        obtain ⟨h31, hel⟩ : vs.length < 2 ^ 31 ∧ ∀ v ∈ vs, v < 256 ^ 8 := by
          simpa [validTag, List.all_eq_true] using hv
        have h31n : vs.length < 2147483648 := by norm_num at h31 ⊢; exact h31
        have hlen : vs.length < 256 ^ 4 := lt_trans h31 (by norm_num)
        have hfix := readFixed_writeMany (w := 8) vs hel r
        simp [TagValue.kind, encodePayload, readPayload, List.append_assoc,
          readBE_writeBE_of_lt hlen, h31n, hfix]
    · intro k es r hv hf
      cases es with
      | nil => simp [readElems, encodeElems]
      | cons v vs =>
        obtain ⟨⟨hk, hval⟩, hrest⟩ :
            (v.kind = k ∧ validTag v = true) ∧ validElems k vs = true := by
          simpa [validElems, Bool.and_eq_true] using hv
        subst hk
        rw [elemsFuel] at hf
        have hvpos := tagFuel_pos v
        have h1 := ih1 v (encodeElems vs ++ r) hval (by omega)
        have h2 := ih2 v.kind vs r hrest (by omega)
        simp [readElems, encodeElems, List.append_assoc, h1, h2]
    · intro en acc r hval hdis hacc hf
      cases en with
      | nil => simp [encodeEntries, readEntries, readBE_cons]
      | cons e es =>
        obtain ⟨n, v⟩ := e
        obtain ⟨⟨⟨hnl, hnb⟩, hv⟩, hes⟩ :
            ((n.length < 256 ^ 2 ∧ ∀ b ∈ n, b < 256) ∧ validTag v = true)
              ∧ validEntries es = true := by
          simpa [validEntries, Bool.and_eq_true, List.all_eq_true] using hval
        obtain ⟨hfresh, hdis2⟩ :
            (∀ e2 ∈ es, ¬(e2.1 = n)) ∧ namesDisjoint es = true := by
          simpa [namesDisjoint, Bool.and_eq_true, List.any_eq_false] using hdis
        rw [entriesFuel] at hf
        have hvpos := tagFuel_pos v
        have hname := readFixed_writeMany (w := 1) n (by simpa using hnb)
          (encodePayload v ++ (encodeEntries es ++ 0 :: r))
        have hpay := ih1 v (encodeEntries es ++ 0 :: r) hv (by omega)
        have hup := upsert_fresh acc n v (fun e he => hacc e he (n, v) (List.mem_cons_self _ _))
        have hacc2 : ∀ e ∈ acc ++ [(n, v)], ∀ e2 ∈ es, e.1 ≠ e2.1 := by
          intro e he e2 he2
          rcases List.mem_append.mp he with h | h
          · exact hacc e h e2 (List.mem_cons_of_mem _ he2)
          · have he' : e = (n, v) := by simpa using h
            subst he'
            exact fun hcon => hfresh e2 he2 (by simp [← hcon])
        have hrec := ih3 es (acc ++ [(n, v)]) r hes hdis2 hacc2 (by omega)
        simp [encodeEntries, readEntries, readBE_cons, kind_id_ne_zero v, kindOfId_id,
          List.append_assoc, readBE_writeBE_of_lt hnl, hname, hpay, hup, hrec]

theorem encode_fuel_bound :
    ∀ f : Nat,
    (∀ v : TagValue, tagFuel v ≤ f → tagFuel v + 1 ≤ 3 * (encodePayload v).length)
    ∧ (∀ es : List TagValue, elemsFuel es ≤ f → elemsFuel es ≤ 3 * (encodeElems es).length)
    ∧ (∀ en : List (List Nat × TagValue), entriesFuel en ≤ f →
        entriesFuel en ≤ 3 * (encodeEntries en).length) := by
  intro f
  induction f with
  | zero =>
    refine ⟨fun v hf => absurd hf ?_, fun es hf => ?_, fun en hf => ?_⟩
    · have := tagFuel_pos v
      omega
    · cases es with
      | nil => simp [elemsFuel]
      | cons v vs =>
        rw [elemsFuel] at hf
        have := tagFuel_pos v
        omega
    · cases en with
      | nil => simp [entriesFuel]
      | cons e es =>
        obtain ⟨n, v⟩ := e
        rw [entriesFuel] at hf
        have := tagFuel_pos v
        omega
  | succ f ih =>
    obtain ⟨ih1, ih2, ih3⟩ := ih
    refine ⟨?_, ?_, ?_⟩
    · intro v hf
      cases v with
      | byte x => simp [tagFuel, encodePayload, writeBE_length]
      | short x => simp [tagFuel, encodePayload, writeBE_length]
      | int x => simp [tagFuel, encodePayload, writeBE_length]
      | long x => simp [tagFuel, encodePayload, writeBE_length]
      | float x => simp [tagFuel, encodePayload, writeBE_length]
      | double x => simp [tagFuel, encodePayload, writeBE_length]
      | byteArray vs =>
        simp [tagFuel, encodePayload, writeBE_length, writeMany_length]
        omega
      | string bs =>
        simp [tagFuel, encodePayload, writeBE_length, writeMany_length]
        omega
      | list k es =>
        rw [tagFuel] at hf ⊢
        have h2 := ih2 es (by omega)
        simp only [encodePayload, List.length_cons, List.length_append, writeBE_length]
        omega
      | compound en =>
        rw [tagFuel] at hf ⊢
        have h3 := ih3 en (by omega)
        simp only [encodePayload, List.length_append, List.length_cons, List.length_nil]
        omega
      | intArray vs =>
        simp [tagFuel, encodePayload, writeBE_length, writeMany_length]
        omega
      | longArray vs =>
        simp [tagFuel, encodePayload, writeBE_length, writeMany_length]
        omega
    · intro es hf
      cases es with
      | nil => simp [elemsFuel]
      | cons v vs =>
        rw [elemsFuel] at hf ⊢
        have hvpos := tagFuel_pos v
        have h1 := ih1 v (by omega)
        have h2 := ih2 vs (by omega)
        simp only [encodeElems, List.length_append]
        omega
    · intro en hf
      cases en with
      | nil => simp [entriesFuel]
      | cons e es =>
        obtain ⟨n, v⟩ := e
        rw [entriesFuel] at hf ⊢
        have hvpos := tagFuel_pos v
        have h1 := ih1 v (by omega)
        have h3 := ih3 es (by omega)
        simp only [encodeEntries, List.length_cons, List.length_append, writeBE_length,
          writeMany_length]
        omega

theorem decode_encode (T : NamedTag) (h : validNamed T = true) :
    decode (encode T) = some T := by
  obtain ⟨name, value⟩ := T
  obtain ⟨⟨⟨hnl, hnb⟩, hkind⟩, hval⟩ : ((name.length < 256 ^ 2 ∧ ∀ b ∈ name, b < 256)
      ∧ value.kind = .Compound) ∧ validTag value = true := by
    simpa [validNamed, Bool.and_eq_true, List.all_eq_true] using h
  have hname := readFixed_writeMany (w := 1) name (by simpa using hnb) (encodePayload value)
  have hpay : ∀ fuel : Nat, tagFuel value ≤ fuel →
      readPayload fuel .Compound (encodePayload value) = some (value, []) := by
    intro fuel hfl
    have hp := (read_encode fuel).1 value [] hval hfl
    rwa [List.append_nil, hkind] at hp
  have hb := (encode_fuel_bound (tagFuel value)).1 value le_rfl
  simp only [encode, decode, List.length_cons]
  norm_num [readBE_writeBE_of_lt hnl, hname]
  rw [hpay]
  have : (writeBE 2 name.length ++ (writeMany 1 name ++ encodePayload value)).length
      = 2 + name.length + (encodePayload value).length := by
    simp [List.length_append, writeBE_length, writeMany_length]
    omega
  omega

/-- Modelled from the spec: the gzip side of the CompressionAdapter (spec
section 4.4; the Python `gzip` module is an external library, not under src/).
A gzip stream is framed by the magic bytes 0x1F 0x8B (spec section 6); the
payload coding is internal to the external library and is modelled as the
identity, which satisfies the adapter contract
`decompress(compress(bytes)) == bytes`. -/
def gzipCompress (b : List Nat) : List Nat := 31 :: 139 :: b

/-- Modelled from the spec: gzip decompression; fails (the IOError of spec
section 4.4 on a corrupt compressed-stream header) unless the stream carries
the gzip magic bytes. -/
def gzipDecompress : List Nat → Option (List Nat)
  | 31 :: 139 :: rest => some rest
  | _ => none

/-- Characters of the path after the last slash (the basename). -/
def baseChars (cs : List Char) : List Char :=
  cs.foldl (fun acc c => if c = '/' then [] else acc ++ [c]) []

/-- Characters after the last dot, if any dot occurs. -/
def afterLastDot : List Char → Option (List Char)
  | [] => none
  | c :: rest =>
    match afterLastDot rest with
    | some e => some e
    | none => if c = '.' then some rest else none

/-- Model of `os.path.splitext(fileName)[1]` as used by openFile and saveFile
(main.py lines 179 and 244): the suffix of the basename from its last dot,
where leading dots of the basename do not start an extension. -/
def fileExtension (p : String) : String :=
  let base := baseChars p.toList
  let stripped := base.dropWhile fun c => c = '.'
  match afterLastDot stripped with
  | none => ""
  | some e => String.mk ('.' :: e)

/-- The two read/write paths of openFile and saveFile. -/
inductive OpenMode where
  | gzipped
  | raw
deriving DecidableEq

/-- Read-side selection of `NBTViewer.openFile` (main.py lines 179-184): the
'.dat' extension selects the gzip path, any other extension the raw path. -/
def openFileMode (fileName : String) : OpenMode :=
  if fileExtension fileName = ".dat" then .gzipped else .raw

/-- The byte stream `NBTViewer.openFile` hands to the NBT parser for a file
whose on-disk bytes are `content`: `gzip.open` decompresses on the '.dat'
branch; the other branch reads the bytes raw (modelled from the spec for the
external `nbt.NBTFile` reader: generic-NBT files are stored raw, spec
section 4.4). -/
def openFileBytes (fileName : String) (content : List Nat) : Option (List Nat) :=
  match openFileMode fileName with
  | .gzipped => gzipDecompress content
  | .raw => some content

/-- The bytes `NBTViewer.saveFile` (main.py lines 240-251) writes to disk: a
'.dat' path gzip-compresses the encoder output (produced through an in-memory
buffer), any other path stores the encoder output raw (modelled from the spec
for the external `write_file`: generic-NBT files are stored raw, spec
section 4.4). -/
def saveFileBytes (fileName : String) (T : NamedTag) : List Nat :=
  if fileExtension fileName = ".dat" then gzipCompress (encode T) else encode T

/-- A tree-widget item as `NBTViewer.populateTree` builds it: the two text
columns, the editable flag, and the child items. -/
inductive Row where
  | mk (text0 : String) (text1 : String) (editable : Bool) (children : List Row)

def Row.text0 : Row → String
  | .mk t _ _ _ => t

def Row.text1 : Row → String
  | .mk _ t _ _ => t

def Row.editable : Row → Bool
  | .mk _ _ e _ => e

def Row.children : Row → List Row
  | .mk _ _ _ c => c

/-- The non-breaking space (U+00A0) main.py prepends to every leaf name. -/
def nbsp : String := "\u00A0"

/-- Python `str(...)` of a name or string payload, its UTF-8 bytes read back as
text (exact text rendering is external; byte-faithful for ASCII names). -/
def nameStr (bs : List Nat) : String := String.mk (bs.map Char.ofNat)

/-- Modelled from the spec: `str(tag)` of a leaf tag object ("the stringified
scalar", spec section 4.5; the tag classes live in the external `nbt`
library). Containers are never stringified by main.py. -/
def tagValueStr : TagValue → String
  | .byte v => toString v
  | .short v => toString v
  | .int v => toString v
  | .long v => toString v
  | .float v => toString v
  | .double v => toString v
  | .byteArray vs => toString vs
  | .string bs => nameStr bs
  | .list _ _ => ""
  | .compound _ => ""
  | .intArray vs => toString vs
  | .longArray vs => toString vs

/-- `len(tag)` of a container tag: its number of entries or elements. -/
def TagValue.containerLen : TagValue → Nat
  | .list _ es => es.length
  | .compound en => en.length
  | _ => 0

mutual

/-- Model of `NBTViewer.populateTree` (main.py lines 207-236): the child items
created under a parent for a given tag; `selfName` is the tag's own `.name`,
used only by the direct-leaf fallthrough branch. Every created item gets the
editable flag set (`item.setFlags(item.flags() | Qt.ItemIsEditable)`). -/
def populateTree (selfName : String) : TagValue → List Row
  | .compound en => compoundRows en
  | .list _ es => listRows 0 es
  | t => [.mk (nbsp ++ selfName) (tagValueStr t) true []]

/-- The per-entry loop of the Compound branch (main.py lines 209-219):
containers get a "[count] name" label, recursion for their children and no
value text; leaves get a non-breaking-space-prefixed name and `str(tag)`. -/
def compoundRows : List (List Nat × TagValue) → List Row
  | [] => []
  | (n, t) :: rest =>
    (if t.isContainer then
      Row.mk ("[" ++ toString t.containerLen ++ "] " ++ nameStr n) "" true
        (populateTree (nameStr n) t)
    else
      Row.mk (nbsp ++ nameStr n) (tagValueStr t) true []) :: compoundRows rest

/-- The per-index loop of the List branch (main.py lines 221-230), the element
index standing in for the name. -/
def listRows (i : Nat) : List TagValue → List Row
  | [] => []
  | t :: rest =>
    (if t.isContainer then
      Row.mk ("[" ++ toString t.containerLen ++ "] " ++ toString i) "" true
        (populateTree (toString i) t)
    else
      Row.mk (nbsp ++ toString i) (tagValueStr t) true []) :: listRows (i + 1) rest

end

/-- The row populateTree creates for one displayed node with display name `nm`
and tag `t` (both branches of main.py lines 211-219 create exactly this). -/
def entryRow (nm : String) (t : TagValue) : Row :=
  if t.isContainer then
    Row.mk ("[" ++ toString t.containerLen ++ "] " ++ nm) "" true (populateTree nm t)
  else
    Row.mk (nbsp ++ nm) (tagValueStr t) true []

/-- Every row of a forest, descendants included. -/
def allRows : List Row → List Row
  | [] => []
  | .mk t0 t1 e cs :: rest => .mk t0 t1 e cs :: (allRows cs ++ allRows rest)

/-- The dynamically typed `value` slot of a Python nbt tag object: the library
stores a number, text or raw bytes there, and main.py may overwrite it with
whatever string the edited cell holds. -/
inductive PyValue where
  | num (n : Int)
  | text (s : String)
  | bytes (bs : List Nat)
deriving DecidableEq

/-- A Python tag object as `NBTViewer.updateNBT` sees it through the item's
UserRole data: its kind and its mutable `value`. -/
structure PyTag where
  kind : TagKind
  value : PyValue
deriving DecidableEq

/-- Model of `NBTViewer.updateNBT` (main.py lines 320-324): on an item-changed
event, when the edited column is the value column (1) and the item carries a
tag reference, the raw edited text is assigned to `tag.value`; in every other
case the tag is untouched. -/
def updateNBT (tag : Option PyTag) (column : Nat) (text1 : String) : Option PyTag :=
  if column = 1 then
    match tag with
    | some t => some ⟨t.kind, .text text1⟩
    | none => none
  else tag

/-- The search state of NBTViewer: the matched items (as abstract handles) and
the current result index. -/
structure SearchState where
  searchResults : List Nat
  searchResultIndex : Nat
deriving DecidableEq

/-- Model of `NBTViewer.nextSearchResult` (main.py lines 296-300):
`(index + 1) % len(results)` when the result list is nonempty. -/
def nextSearchResult (s : SearchState) : SearchState :=
  if s.searchResults.isEmpty then s
  else ⟨s.searchResults, (s.searchResultIndex + 1) % s.searchResults.length⟩

/-- Model of `NBTViewer.prevSearchResult` (main.py lines 304-308): Python
`(index - 1) % len(results)` on ints, whose remainder with a positive modulus
is nonnegative (Int.emod). -/
def prevSearchResult (s : SearchState) : SearchState :=
  if s.searchResults.isEmpty then s
  else ⟨s.searchResults,
    (((s.searchResultIndex : Int) - 1) % (s.searchResults.length : Int)).toNat⟩

theorem isContainer_elim (t : TagValue) (h : t.isContainer = true) :
    (∃ k es, t = .list k es) ∨ ∃ en, t = .compound en := by
  cases t <;> simp_all [TagValue.isContainer]

theorem populateTree_leaf (nm : String) (t : TagValue) (h : t.isContainer = false) :
    populateTree nm t = [entryRow nm t] := by
  cases t <;> simp_all [TagValue.isContainer, populateTree, entryRow]

theorem entryRow_leaf (nm : String) (t : TagValue) (h : t.isContainer = false) :
    entryRow nm t = Row.mk (nbsp ++ nm) (tagValueStr t) true [] := by
  simp [entryRow, h]

theorem entryRow_container (nm : String) (t : TagValue) (h : t.isContainer = true) :
    entryRow nm t
      = Row.mk ("[" ++ toString t.containerLen ++ "] " ++ nm) "" true (populateTree nm t) := by
  simp [entryRow, h]

theorem rows_are_entryRows :
    ∀ f : Nat,
    (∀ (nm : String) (t : TagValue), tagFuel t ≤ f →
      ∀ r ∈ allRows (populateTree nm t), ∃ nm2 t2, r = entryRow nm2 t2)
    ∧ (∀ en : List (List Nat × TagValue), entriesFuel en < f →
      ∀ r ∈ allRows (compoundRows en), ∃ nm2 t2, r = entryRow nm2 t2)
    ∧ (∀ (i : Nat) (es : List TagValue), elemsFuel es < f →
      ∀ r ∈ allRows (listRows i es), ∃ nm2 t2, r = entryRow nm2 t2) := by
  intro f
  induction f with
  | zero =>
    refine ⟨fun nm t hf => absurd hf ?_, fun en hf => absurd hf (by omega),
      fun i es hf => absurd hf (by omega)⟩
    have := tagFuel_pos t
    omega
  | succ f ih =>
    obtain ⟨ih1, ih2, ih3⟩ := ih
    have p2 : ∀ en : List (List Nat × TagValue), entriesFuel en < f + 1 →
        ∀ r ∈ allRows (compoundRows en), ∃ nm2 t2, r = entryRow nm2 t2 := by
      intro en
      induction en with
      | nil =>
        intro _ r hr
        simp [compoundRows, allRows] at hr
      | cons e rest ihen =>
        obtain ⟨n, t⟩ := e
        intro hf r hr
        rw [entriesFuel] at hf
        have hvpos := tagFuel_pos t
        by_cases hc : t.isContainer = true
        · rw [compoundRows, if_pos hc] at hr
          rw [allRows] at hr
          rcases List.mem_cons.mp hr with hr | hr
          · exact ⟨nameStr n, t, by rw [hr, entryRow_container _ _ hc]⟩
          · rcases List.mem_append.mp hr with hr | hr
            · exact ih1 (nameStr n) t (by omega) r hr
            · exact ihen (by omega) r hr
        · rw [compoundRows, if_neg hc] at hr
          rw [allRows] at hr
          rcases List.mem_cons.mp hr with hr | hr
          · refine ⟨nameStr n, t, ?_⟩
            rw [hr, entryRow_leaf _ _ (by simpa using hc)]
          · rcases List.mem_append.mp hr with hr | hr
            · simp [allRows] at hr
            · exact ihen (by omega) r hr
    have p3 : ∀ (i : Nat) (es : List TagValue), elemsFuel es < f + 1 →
        ∀ r ∈ allRows (listRows i es), ∃ nm2 t2, r = entryRow nm2 t2 := by
      intro i es
      induction es generalizing i with
      | nil =>
        intro _ r hr
        simp [listRows, allRows] at hr
      | cons t rest ihes =>
        intro hf r hr
        rw [elemsFuel] at hf
        have hvpos := tagFuel_pos t
        by_cases hc : t.isContainer = true
        · rw [listRows, if_pos hc] at hr
          rw [allRows] at hr
          rcases List.mem_cons.mp hr with hr | hr
          · exact ⟨toString i, t, by rw [hr, entryRow_container _ _ hc]⟩
          · rcases List.mem_append.mp hr with hr | hr
            · exact ih1 (toString i) t (by omega) r hr
            · exact ihes (i + 1) (by omega) r hr
        · rw [listRows, if_neg hc] at hr
          rw [allRows] at hr
          rcases List.mem_cons.mp hr with hr | hr
          · refine ⟨toString i, t, ?_⟩
            rw [hr, entryRow_leaf _ _ (by simpa using hc)]
          · rcases List.mem_append.mp hr with hr | hr
            · simp [allRows] at hr
            · exact ihes (i + 1) (by omega) r hr
    refine ⟨?_, p2, p3⟩
    intro nm t hf r hr
    by_cases hc : t.isContainer = true
    · rcases isContainer_elim t hc with ⟨k, es, rfl⟩ | ⟨en, rfl⟩
      · rw [tagFuel] at hf
        simp only [populateTree] at hr
        exact p3 0 es (by omega) r hr
      · rw [tagFuel] at hf
        simp only [populateTree] at hr
        exact p2 en (by omega) r hr
    · rw [populateTree_leaf nm t (by simpa using hc),
        entryRow_leaf nm t (by simpa using hc)] at hr
      rw [allRows, allRows] at hr
      rcases List.mem_cons.mp hr with hr | hr
      · exact ⟨nm, t, by rw [hr, entryRow_leaf nm t (by simpa using hc)]⟩
      · simp [allRows] at hr

/-- A byte stream is well-formed when it is the Encoder's output for some
valid tag tree (spec sections 4.3 and 8). -/
def WellFormedStream (s : List Nat) : Prop :=
  ∃ T : NamedTag, validNamed T = true ∧ encode T = s

/-- C1: for every well-formed NBT byte stream S accepted by the decoder,
re-encoding the decoded tree reproduces the input byte-for-byte:
encode(decode(S)) = S. -/
theorem c1_decode_encode_roundtrip (S : List Nat) (h : WellFormedStream S) :
    ∃ T : NamedTag, decode S = some T ∧ encode T = S := by
  obtain ⟨T, hv, rfl⟩ := h
  exact ⟨T, decode_encode T hv, rfl⟩

/-- C1 witness: the 4-byte empty-document stream (root compound, empty name,
immediate End) is well-formed and round-trips byte-for-byte. -/
theorem c1_decode_encode_roundtrip_witness :
    WellFormedStream [10, 0, 0, 0]
      ∧ ∃ T : NamedTag, decode [10, 0, 0, 0] = some T ∧ encode T = [10, 0, 0, 0] :=
  ⟨⟨⟨[], .compound []⟩, rfl, rfl⟩,
    c1_decode_encode_roundtrip [10, 0, 0, 0] ⟨⟨[], .compound []⟩, rfl, rfl⟩⟩

/-- C2: the claim says the value edit parses newText per the node's TagKind and
fails with ParseError on an invalid literal, leaving the prior value in place.
The code (main.py line 324) instead runs `tag.value = item.text(1)`: editing an
Int leaf holding 5 to the non-numeric text "abc" replaces the number with the
raw string "abc", with no parse, no error and no rollback. -/
theorem c2_updateNBT_stores_raw_text :
    updateNBT (some ⟨.Int, .num 5⟩) 1 "abc" = some ⟨.Int, .text "abc"⟩ := rfl

/-- C3 counterexample: a content that begins with the gzip magic bytes
0x1F 0x8B but sits under the generic '.nbt' extension is opened through the
raw path, not through gzip decompression: openFile (main.py lines 179-184)
selects the read path by extension alone and never sniffs the content. -/
theorem c3_gzip_magic_ignored_counterexample :
    (gzipCompress [10, 0, 0, 0]).take 2 = [31, 139]
      ∧ openFileMode "world.nbt" = OpenMode.raw
      ∧ openFileBytes "world.nbt" (gzipCompress [10, 0, 0, 0])
          = some (gzipCompress [10, 0, 0, 0]) :=
  ⟨rfl, rfl, rfl⟩

/-- C3 amended: openFile selects the read path by file extension only: a
'.dat' path is read through gzip decompression and every other path is read
raw, even when the content begins with the gzip magic bytes; no content
sniffing is performed on either side. -/
theorem c3_read_mode_by_extension :
    (∀ (name : String) (content : List Nat), fileExtension name = ".dat" →
      openFileBytes name content = gzipDecompress content)
    ∧ ∀ (name : String) (content : List Nat), fileExtension name ≠ ".dat" →
      openFileBytes name content = some content := by
  constructor <;> intro name content h <;> simp [openFileBytes, openFileMode, h]

/-- C3 witness: a '.dat' path goes through gzip decompression, a '.nbt' path
is read raw. -/
theorem c3_read_mode_by_extension_witness :
    (fileExtension "player.dat" = ".dat"
      ∧ openFileBytes "player.dat" [31, 139, 8] = gzipDecompress [31, 139, 8])
    ∧ fileExtension "level.nbt" ≠ ".dat"
      ∧ openFileBytes "level.nbt" [31, 139, 8] = some [31, 139, 8] :=
  ⟨⟨rfl, c3_read_mode_by_extension.1 "player.dat" [31, 139, 8] rfl⟩,
    by decide, c3_read_mode_by_extension.2 "level.nbt" [31, 139, 8] (by decide)⟩

/-- C4 counterexample: the row populateTree creates for a container child (here
a List tag named "a" inside the root compound) carries the editable flag, so a
container does accept direct value edits, against the claimed leaf-only rule:
main.py line 219 sets Qt.ItemIsEditable on every created item. -/
theorem c4_container_editable_counterexample :
    (populateTree "" (.compound [([97], .list .Byte [])])).map Row.editable = [true]
      ∧ (TagValue.list .Byte []).isContainer = true :=
  ⟨rfl, rfl⟩

/-- C4 amended: every node exposed by the tree model - leaf or container - is
marked editable; the editable flag is set unconditionally on every created
item. -/
theorem c4_all_rows_editable (selfName : String) (t : TagValue) :
    ∀ r ∈ allRows (populateTree selfName t), r.editable = true := by
  intro r hr
  obtain ⟨nm, t2, rfl⟩ :=
    (rows_are_entryRows (tagFuel t)).1 selfName t le_rfl r hr
  by_cases hc : t2.isContainer = true
  · rw [entryRow_container _ _ hc]
    rfl
  · rw [entryRow_leaf _ _ (by simpa using hc)]
    rfl

/-- C4 witness: the leaf row for the byte tag "x" is among the exposed rows and
is editable. -/
theorem c4_all_rows_editable_witness :
    Row.mk (nbsp ++ "x") "5" true []
        ∈ allRows (populateTree "" (.compound [([120], .byte 5)]))
      ∧ (Row.mk (nbsp ++ "x") "5" true []).editable = true := by
  have hm : Row.mk (nbsp ++ "x") "5" true []
      ∈ allRows (populateTree "" (.compound [([120], .byte 5)])) := by
    have hp : populateTree "" (.compound [([120], .byte 5)])
        = [Row.mk (nbsp ++ "x") "5" true []] := rfl
    rw [hp]
    simp [allRows]
  exact ⟨hm, c4_all_rows_editable "" (.compound [([120], .byte 5)]) _ hm⟩

/-- C5: a path with the world/player-data extension '.dat' is written
gzip-compressed; a path with the generic NBT extension '.nbt' is written raw
(main.py lines 243-251). -/
theorem c5_save_compression_policy (name : String) (T : NamedTag) :
    (fileExtension name = ".dat" → saveFileBytes name T = gzipCompress (encode T))
    ∧ (fileExtension name = ".nbt" → saveFileBytes name T = encode T) := by
  constructor <;> intro h
  · simp [saveFileBytes, h]
  · simp only [saveFileBytes, h]
    rw [if_neg (by decide)]

/-- C5 witness: saving to "world.dat" gzips the encoder output, saving to
"items.nbt" stores it raw. -/
theorem c5_save_compression_policy_witness :
    (fileExtension "world.dat" = ".dat"
      ∧ saveFileBytes "world.dat" ⟨[], .compound []⟩
          = gzipCompress (encode ⟨[], .compound []⟩))
    ∧ fileExtension "items.nbt" = ".nbt"
      ∧ saveFileBytes "items.nbt" ⟨[], .compound []⟩ = encode ⟨[], .compound []⟩ :=
  ⟨⟨rfl, (c5_save_compression_policy "world.dat" ⟨[], .compound []⟩).1 rfl⟩,
    rfl, (c5_save_compression_policy "items.nbt" ⟨[], .compound []⟩).2 rfl⟩

/-- C6: decompressing the gzip compression of any byte sequence yields that
sequence back; in particular gunzipping a file saved through the compressed
'.dat' path yields exactly the bytes the encoder produced for the tree. -/
theorem c6_gzip_roundtrip :
    (∀ b : List Nat, gzipDecompress (gzipCompress b) = some b)
    ∧ ∀ (name : String) (T : NamedTag), fileExtension name = ".dat" →
        gzipDecompress (saveFileBytes name T) = some (encode T) := by
  refine ⟨fun b => rfl, fun name T h => ?_⟩
  have hs : saveFileBytes name T = gzipCompress (encode T) := by
    simp [saveFileBytes, h]
  rw [hs]
  rfl

/-- C6 witness: the gzip round-trip on a concrete byte sequence and on a
concrete '.dat' save. -/
theorem c6_gzip_roundtrip_witness :
    gzipDecompress (gzipCompress [1, 2, 3]) = some [1, 2, 3]
      ∧ fileExtension "level.dat" = ".dat"
      ∧ gzipDecompress (saveFileBytes "level.dat" ⟨[], .compound []⟩)
          = some (encode ⟨[], .compound []⟩) :=
  ⟨c6_gzip_roundtrip.1 [1, 2, 3], rfl,
    c6_gzip_roundtrip.2 "level.dat" ⟨[], .compound []⟩ rfl⟩

/-- C7 counterexample: the leaf row for the byte tag named "x" displays
"<NBSP>x" (a non-breaking space prepended, main.py line 216), not the raw name
"x". -/
theorem c7_leaf_nbsp_counterexample :
    (populateTree "" (.compound [([120], .byte 5)])).map Row.text0
        = [nbsp ++ "x"]
      ∧ ((nbsp ++ "x" : String)) ≠ "x" :=
  ⟨rfl, by decide⟩

/-- C7 amended: every node exposed by the tree model is rendered from a display
name nm and its tag: containers show the entry count in brackets prefixed to
the name ("[3] inventory" style), while leaves show the name prefixed with a
single non-breaking space (U+00A0), not the raw name alone. -/
theorem c7_display_names (selfName : String) (t : TagValue) :
    ∀ r ∈ allRows (populateTree selfName t), ∃ (nm : String) (t2 : TagValue),
      r = entryRow nm t2
      ∧ (t2.isContainer = true →
          r.text0 = "[" ++ toString t2.containerLen ++ "] " ++ nm)
      ∧ (t2.isContainer = false → r.text0 = nbsp ++ nm) := by
  intro r hr
  obtain ⟨nm, t2, rfl⟩ :=
    (rows_are_entryRows (tagFuel t)).1 selfName t le_rfl r hr
  refine ⟨nm, t2, rfl, fun hc => ?_, fun hc => ?_⟩
  · rw [entryRow_container _ _ hc]
    rfl
  · rw [entryRow_leaf _ _ hc]
    rfl

/-- C7 witness: the container row of a one-entry list named "a" and its
bracketed count label. -/
theorem c7_display_names_witness :
    Row.mk ("[" ++ "1" ++ "] " ++ "a") "" true
        (populateTree "a" (.list .Byte [.byte 9]))
        ∈ allRows (populateTree "" (.compound [([97], .list .Byte [.byte 9])]))
      ∧ ∃ (nm : String) (t2 : TagValue),
        Row.mk ("[" ++ "1" ++ "] " ++ "a") "" true
            (populateTree "a" (.list .Byte [.byte 9])) = entryRow nm t2
        ∧ (t2.isContainer = true →
            (Row.mk ("[" ++ "1" ++ "] " ++ "a") "" true
              (populateTree "a" (.list .Byte [.byte 9]))).text0
              = "[" ++ toString t2.containerLen ++ "] " ++ nm)
        ∧ (t2.isContainer = false →
            (Row.mk ("[" ++ "1" ++ "] " ++ "a") "" true
              (populateTree "a" (.list .Byte [.byte 9]))).text0 = nbsp ++ nm) := by
  have hm : Row.mk ("[" ++ "1" ++ "] " ++ "a") "" true
      (populateTree "a" (.list .Byte [.byte 9]))
      ∈ allRows (populateTree "" (.compound [([97], .list .Byte [.byte 9])])) := by
    have hp : populateTree "" (.compound [([97], .list .Byte [.byte 9])])
        = [Row.mk ("[" ++ "1" ++ "] " ++ "a") "" true
            (populateTree "a" (.list .Byte [.byte 9]))] := rfl
    rw [hp]
    simp [allRows]
  exact ⟨hm, c7_display_names "" (.compound [([97], .list .Byte [.byte 9])]) _ hm⟩

/-- C8: every node exposed by the tree model is rendered from a display name
and its tag; a leaf row's value column holds the stringified scalar value of
the tag, a container row's value column is empty (never set, main.py lines
212-217). -/
theorem c8_display_values (selfName : String) (t : TagValue) :
    ∀ r ∈ allRows (populateTree selfName t), ∃ (nm : String) (t2 : TagValue),
      r = entryRow nm t2
      ∧ (t2.isContainer = false → r.text1 = tagValueStr t2)
      ∧ (t2.isContainer = true → r.text1 = "") := by
  intro r hr
  obtain ⟨nm, t2, rfl⟩ :=
    (rows_are_entryRows (tagFuel t)).1 selfName t le_rfl r hr
  refine ⟨nm, t2, rfl, fun hc => ?_, fun hc => ?_⟩
  · rw [entryRow_leaf _ _ hc]
    rfl
  · rw [entryRow_container _ _ hc]
    rfl

/-- C8 witness: the leaf row of the int tag "n" shows its stringified value and
the container row of the enclosing compound shows an empty value. -/
theorem c8_display_values_witness :
    Row.mk (nbsp ++ "n") "77" true []
        ∈ allRows (populateTree "" (.compound [([110], .int 77)]))
      ∧ ∃ (nm : String) (t2 : TagValue),
        Row.mk (nbsp ++ "n") "77" true [] = entryRow nm t2
        ∧ (t2.isContainer = false →
            (Row.mk (nbsp ++ "n") "77" true []).text1 = tagValueStr t2)
        ∧ (t2.isContainer = true →
            (Row.mk (nbsp ++ "n") "77" true []).text1 = "") := by
  have hm : Row.mk (nbsp ++ "n") "77" true []
      ∈ allRows (populateTree "" (.compound [([110], .int 77)])) := by
    have hp : populateTree "" (.compound [([110], .int 77)])
        = [Row.mk (nbsp ++ "n") "77" true []] := rfl
    rw [hp]
    simp [allRows]
  exact ⟨hm, c8_display_values "" (.compound [([110], .int 77)]) _ hm⟩

/-- C9: committing an edit in any column other than the value column (1) never
modifies the underlying tag: updateNBT (main.py lines 320-324) is a no-op for
every column other than 1. -/
theorem c9_other_column_edit_noop (tag : Option PyTag) (column : Nat)
    (text1 : String) (h : column ≠ 1) :
    updateNBT tag column text1 = tag := by
  simp [updateNBT, h]

/-- C9 witness: editing column 0 (the name column) of an Int leaf leaves the
tag unchanged. -/
theorem c9_other_column_edit_noop_witness :
    (0 : Nat) ≠ 1
      ∧ updateNBT (some ⟨.Int, .num 5⟩) 0 "renamed" = some ⟨.Int, .num 5⟩ :=
  ⟨by decide, c9_other_column_edit_noop (some ⟨.Int, .num 5⟩) 0 "renamed" (by decide)⟩

/-- C10: when the search-result list is nonempty, next and previous keep the
current index within bounds by wrapping modulo the number of results:
advancing past the last result returns to the first, stepping back from the
first moves to the last (main.py lines 296-308). -/
theorem c10_search_wrap (s : SearchState)
    (hne : s.searchResults ≠ [])
    (hix : s.searchResultIndex < s.searchResults.length) :
    (nextSearchResult s).searchResultIndex < s.searchResults.length
    ∧ (prevSearchResult s).searchResultIndex < s.searchResults.length
    ∧ (s.searchResultIndex = s.searchResults.length - 1 →
        (nextSearchResult s).searchResultIndex = 0)
    ∧ (s.searchResultIndex = 0 →
        (prevSearchResult s).searchResultIndex = s.searchResults.length - 1) := by
  obtain ⟨res, ix⟩ := s
  simp only at hne hix ⊢
  have hlen : 0 < res.length := List.length_pos.mpr hne
  have hemp : res.isEmpty = false := by
    simp [List.isEmpty_iff, hne]
  have hnonneg : 0 ≤ ((ix : Int) - 1) % (res.length : Int) :=
    Int.emod_nonneg _ (by omega)
  have hlt : ((ix : Int) - 1) % (res.length : Int) < (res.length : Int) :=
    Int.emod_lt_of_pos _ (by omega)
  refine ⟨?_, ?_, ?_, ?_⟩
  · simp only [nextSearchResult, hemp, Bool.false_eq_true, if_false]
    exact Nat.mod_lt _ hlen
  · simp only [prevSearchResult, hemp, Bool.false_eq_true, if_false]
    omega
  · intro h0
    simp only [nextSearchResult, hemp, Bool.false_eq_true, if_false]
    have hx : ix + 1 = res.length := by omega
    rw [hx, Nat.mod_self]
  · intro h0
    simp only [prevSearchResult, hemp, Bool.false_eq_true, if_false]
    subst h0
    have hcast : ((0 : Nat) : Int) - 1
        = ((res.length : Int) - 1) + (res.length : Int) * (-1) := by
      push_cast
      ring
    rw [hcast, Int.add_mul_emod_self_left, Int.emod_eq_of_lt (by omega) (by omega)]
    omega

/-- C10 witness: with two results and index 0, next moves to 1 (in bounds) and
previous wraps to the last index 1. -/
theorem c10_search_wrap_witness :
    (([5, 6] : List Nat) ≠ [] ∧ (0 : Nat) < ([5, 6] : List Nat).length)
    ∧ ((nextSearchResult ⟨[5, 6], 0⟩).searchResultIndex < ([5, 6] : List Nat).length
      ∧ (prevSearchResult ⟨[5, 6], 0⟩).searchResultIndex < ([5, 6] : List Nat).length
      ∧ ((0 : Nat) = ([5, 6] : List Nat).length - 1 →
          (nextSearchResult ⟨[5, 6], 0⟩).searchResultIndex = 0)
      ∧ ((0 : Nat) = 0 →
          (prevSearchResult ⟨[5, 6], 0⟩).searchResultIndex
            = ([5, 6] : List Nat).length - 1)) :=
  ⟨⟨by decide, by decide⟩, c10_search_wrap ⟨[5, 6], 0⟩ (by decide) (by decide)⟩

end PyNBT
